import Mathlib

/-!
A shallow embedding of `opening_hours.py`: the interval normalizer
`parse_opening_hours` and the time-formatting helpers
`seconds_to_hours_and_minutes` / `hours_and_minutes_as_string`,
together with theorems settling the specification claims about them.

Modelling conventions:
* A raw event is `{type: optional string, value: int seconds-of-day}`;
  an event dictionary lacking the `"type"` key is modelled with `type = none`.
* The input mapping `dict weekday -> event list` is modelled as a function
  `Day → Option (List Event)`; an absent key is `none`.
* Python `raise RuntimeError` is modelled as `Except.error` with a
  constructor per raise site.
* Python truthiness of `current_start` / `sunday_close` (an optional int):
  `None` and `0` are both falsy — see `optTruthy`.
* Python's `sorted(entries, key=lambda x: x['value'])` is a stable sort by
  `value`; `sortEvents` below is a stable insertion sort by `value`, which
  is extensionally the same function (stable sorts by the same key agree).
  The source sorts every day's list up front and then iterates the days;
  sorting each day's list right before processing it is equivalent, since
  each day's processing reads only its own list.
-/

inductive Day : Type
  | monday | tuesday | wednesday | thursday | friday | saturday | sunday
deriving DecidableEq, Repr

/-- `DAY_NAMES` from the source: the canonical weekday order. -/
def DAY_NAMES : List Day :=
  [.monday, .tuesday, .wednesday, .thursday, .friday, .saturday, .sunday]

/-- A raw opening-hours event: optional `"type"` entry and a `value`. -/
structure Event : Type where
  type : Option String
  value : Nat
deriving DecidableEq, Repr

/-- An output day record: `{day, hours}`, where `hours` is `None` or a list
of `(start, end)` pairs; the `end` slot may transiently be `None`. -/
structure DayRecord : Type where
  day : Day
  hours : Option (List (Nat × Option Nat))
deriving DecidableEq, Repr

/-- One constructor per `raise RuntimeError` site in `parse_opening_hours`. -/
inductive ParseError : Type
  /-- line 79: new open time before previous time closed -/
  | overlappingOpen (value : Nat) (day : Day)
  /-- line 104: invalid close time (no previous-day interval, day not monday) -/
  | invalidClose (value : Nat) (day : Day)
  /-- line 109: new close time without an opening time -/
  | closeWithoutOpen (value : Nat) (day : Day)
  /-- line 122: lingering sunday close time detected -/
  | lingeringSundayClose
  /-- line 132: lingering opening time -/
  | lingeringOpen (start : Nat) (day : Day)
deriving DecidableEq, Repr

/-- Python truthiness of an optional integer: `None` and `0` are falsy. -/
def optTruthy : Option Nat → Bool
  | none => false
  | some v => v != 0

/-- `hours[-1] = (hours[-1][0], value)` on a list known to be nonempty
(no-op on `[]`, which the call sites exclude by truthiness checks). -/
def setLastEnd (hs : List (Nat × Option Nat)) (v : Nat) : List (Nat × Option Nat) :=
  match hs.getLast? with
  | none => hs
  | some last => hs.dropLast ++ [(last.1, some v)]

/-- Stable insertion (before the first element of `value` ≥ the inserted
one), matching Python's stable sort by `value`. -/
def insertSorted (e : Event) : List Event → List Event
  | [] => [e]
  | y :: ys => if y.value < e.value then y :: insertSorted e ys else e :: y :: ys

/-- `sorted(entries, key=lambda x: x['value'])`: stable sort by `value`. -/
def sortEvents : List Event → List Event
  | [] => []
  | x :: xs => insertSorted x (sortEvents xs)

/-- The mutable state of the per-day loop of `parse_opening_hours`:
`all_days` and `sunday_close` persist across days, `hours` and
`current_start` are the per-day locals (reset at each day's start). -/
structure LoopState : Type where
  all_days : List DayRecord
  sunday_close : Option Nat
  hours : List (Nat × Option Nat)
  current_start : Option Nat
deriving DecidableEq, Repr

/-- The body of the inner `for item in hours_data[day_name]` loop
(source lines 73–114). -/
def processEvent (day_name : Day) (st : LoopState) (item : Event) :
    Except ParseError LoopState :=
  match item.type with
  | none => .ok st
  | some t =>
    if t = "open" then
      if optTruthy st.current_start then
        .error (.overlappingOpen item.value day_name)
      else
        -- current_start = item['value'], then consolidate with the previous
        -- finalized pair when this start equals its end
        match st.hours.getLast? with
        | some last =>
          if last.2 = some item.value then
            .ok { st with current_start := some last.1, hours := st.hours.dropLast }
          else
            .ok { st with current_start := some item.value }
        | none => .ok { st with current_start := some item.value }
    else if t = "close" then
      if st.current_start = none ∧ st.hours = [] then
        match st.all_days.getLast? with
        | some prev =>
          match prev.hours with
          | some (p :: ps) =>
            -- the previous day's record has truthy hours: rewrite the end
            -- of its last interval to this close value
            .ok { st with all_days :=
              st.all_days.dropLast ++
                [{ prev with hours := some (setLastEnd (p :: ps) item.value) }] }
          | _ =>
            if day_name = .monday then
              .ok { st with sunday_close := some item.value }
            else
              .error (.invalidClose item.value day_name)
        | none =>
          if day_name = .monday then
            .ok { st with sunday_close := some item.value }
          else
            .error (.invalidClose item.value day_name)
      else
        match st.current_start with
        | none => .error (.closeWithoutOpen item.value day_name)
        | some cs =>
          .ok { st with hours := st.hours ++ [(cs, some item.value)],
                        current_start := none }
    else
      -- `type` neither "open" nor "close": the if/elif chain falls through
      .ok st

/-- The inner loop over one day's (sorted) events. -/
def processEvents (day_name : Day) : List Event → LoopState → Except ParseError LoopState
  | [], st => .ok st
  | item :: rest, st =>
    match processEvent day_name st item with
    | .error e => .error e
    | .ok st' => processEvents day_name rest st'

/-- Lines 116–120: a still-active cursor at the end of a day's events is
closed with the stashed sunday close when the day is sunday and the stash
is truthy, and with `None` otherwise. -/
def attachTrailing (day_name : Day) (sc : Option Nat)
    (hours : List (Nat × Option Nat)) (cs : Nat) : List (Nat × Option Nat) :=
  match sc with
  | some v =>
    if day_name = .sunday ∧ v ≠ 0 then hours ++ [(cs, some v)]
    else hours ++ [(cs, none)]
  | none => hours ++ [(cs, none)]

/-- One iteration of the `for day_name in DAY_NAMES` loop
(source lines 61–127). -/
def processDay (hours_data : Day → Option (List Event)) (st : LoopState)
    (day_name : Day) : Except ParseError LoopState :=
  match hours_data day_name with
  | none => .ok { st with all_days := st.all_days ++ [⟨day_name, none⟩] }
  | some [] => .ok { st with all_days := st.all_days ++ [⟨day_name, none⟩] }
  | some (e :: es) =>
    match processEvents day_name (sortEvents (e :: es))
        { st with hours := [], current_start := none } with
    | .error err => .error err
    | .ok st' =>
      match st'.current_start with
      | some cs =>
        .ok { st' with
              hours := attachTrailing day_name st'.sunday_close st'.hours cs,
              all_days := st'.all_days ++
                [⟨day_name,
                  if attachTrailing day_name st'.sunday_close st'.hours cs = []
                  then none
                  else some (attachTrailing day_name st'.sunday_close st'.hours cs)⟩] }
      | none =>
        match st'.sunday_close with
        | some sc =>
          if day_name = .sunday ∧ sc ≠ 0 then
            .error .lingeringSundayClose
          else
            .ok { st' with all_days := st'.all_days ++
              [⟨day_name, if st'.hours = [] then none else some st'.hours⟩] }
        | none =>
          .ok { st' with all_days := st'.all_days ++
            [⟨day_name, if st'.hours = [] then none else some st'.hours⟩] }

/-- The outer loop over the seven canonical days. -/
def processDays (hours_data : Day → Option (List Event)) :
    List Day → LoopState → Except ParseError LoopState
  | [], st => .ok st
  | d :: ds, st =>
    match processDay hours_data st d with
    | .error e => .error e
    | .ok st' => processDays hours_data ds st'

/-- The final lingering-open scan (source lines 129–136): fail at the first
record whose (truthy) hours list ends in a `None` end. -/
def finalCheck : List DayRecord → Except ParseError Unit
  | [] => .ok ()
  | day :: rest =>
    match day.hours with
    | some hs =>
      match hs.getLast? with
      | some last =>
        if last.2 = none then .error (.lingeringOpen last.1 day.day)
        else finalCheck rest
      | none => finalCheck rest
    | none => finalCheck rest

/-- `parse_opening_hours` (source lines 8–138). -/
def parse_opening_hours (hours_data : Day → Option (List Event)) :
    Except ParseError (List DayRecord) :=
  match processDays hours_data DAY_NAMES ⟨[], none, [], none⟩ with
  | .error e => .error e
  | .ok st =>
    match finalCheck st.all_days with
    | .error e => .error e
    | .ok _ => .ok st.all_days

/-- `seconds_to_hours_and_minutes` (source lines 141–157). -/
def seconds_to_hours_and_minutes (seconds : Nat) : Nat × Nat :=
  let minutes := seconds / 60
  let hours := minutes / 60
  (hours, minutes % 60)

/-- Python `'{:02d}'.format(n)`: zero-pad to (at least) two digits. -/
def pad2 (n : Nat) : String :=
  if n < 10 then "0" ++ toString n else toString n

/-- `hours_and_minutes_as_string` (source lines 160–189). -/
def hours_and_minutes_as_string (hours_and_minutes : Nat × Nat) : String :=
  let hours0 := hours_and_minutes.1
  let minutes := hours_and_minutes.2
  let am_or_pm := if hours0 ≥ 12 then "pm" else "am"
  let hours := if hours0 ≥ 12 then (if hours0 > 12 then hours0 - 12 else hours0) else hours0
  toString hours ++ (if minutes ≠ 0 then ":" ++ pad2 minutes else "") ++ " " ++ am_or_pm

/-- Rendering one seconds-of-day value, as the formatter composes it. -/
def renderSeconds (s : Nat) : String :=
  hours_and_minutes_as_string (seconds_to_hours_and_minutes s)

/-- Helper to build concrete inputs. -/
def inputOf (l : List (Day × List Event)) : Day → Option (List Event) :=
  fun d => (l.find? (fun p => p.1 = d)).map (fun p => p.2)

/-- The all-closed output. -/
def allNullDays : List DayRecord :=
  [⟨.monday, none⟩, ⟨.tuesday, none⟩, ⟨.wednesday, none⟩, ⟨.thursday, none⟩,
   ⟨.friday, none⟩, ⟨.saturday, none⟩, ⟨.sunday, none⟩]

/-! ### Invariants used by the claim proofs -/

/-- Every pair in the list has a `some` end that is at least its start. -/
def GoodHours (hs : List (Nat × Option Nat)) : Prop :=
  ∀ p ∈ hs, ∃ v, p.2 = some v ∧ p.1 ≤ v

/-- A record's hours, when present, are nonempty and all pairs except
possibly the last are finished intervals with start ≤ end. -/
def GoodRec (r : DayRecord) : Prop :=
  ∀ hs, r.hours = some hs → hs ≠ [] ∧ GoodHours hs.dropLast

def GoodDays (A : List DayRecord) : Prop := ∀ r ∈ A, GoodRec r

/-- Records whose day is absent from the input, or mapped to an empty
event list, have null hours. -/
def NullOn (f : Day → Option (List Event)) (A : List DayRecord) : Prop :=
  ∀ r ∈ A, (f r.day = none ∨ f r.day = some []) → r.hours = none

theorem mem_insertSorted (e x : Event) :
    ∀ l : List Event, x ∈ insertSorted e l → x = e ∨ x ∈ l := by
  intro l
  induction l with
  | nil => simp [insertSorted]
  | cons y ys ih =>
    simp only [insertSorted]
    split
    · intro hx
      rcases List.mem_cons.1 hx with h | h
      · exact Or.inr (List.mem_cons.2 (Or.inl h))
      · rcases ih h with h' | h'
        · exact Or.inl h'
        · exact Or.inr (List.mem_cons.2 (Or.inr h'))
    · intro hx
      rcases List.mem_cons.1 hx with h | h
      · exact Or.inl h
      · exact Or.inr h

theorem pairwise_insertSorted (e : Event) :
    ∀ l : List Event, l.Pairwise (fun a b => a.value ≤ b.value) →
      (insertSorted e l).Pairwise (fun a b => a.value ≤ b.value) := by
  intro l
  induction l with
  | nil => simp [insertSorted]
  | cons y ys ih =>
    intro hp
    rcases List.pairwise_cons.1 hp with ⟨hy, hys⟩
    simp only [insertSorted]
    split
    · rename_i hlt
      refine List.pairwise_cons.2 ⟨?_, ih hys⟩
      intro z hz
      rcases mem_insertSorted e z ys hz with rfl | hz'
      · exact Nat.le_of_lt hlt
      · exact hy z hz'
    · rename_i hge
      refine List.pairwise_cons.2 ⟨?_, hp⟩
      intro z hz
      rcases List.mem_cons.1 hz with rfl | hz'
      · exact Nat.le_of_not_lt hge
      · exact Nat.le_trans (Nat.le_of_not_lt hge) (hy z hz')

theorem pairwise_sortEvents :
    ∀ l : List Event, (sortEvents l).Pairwise (fun a b => a.value ≤ b.value) := by
  intro l
  induction l with
  | nil => simp [sortEvents]
  | cons x xs ih => exact pairwise_insertSorted x (sortEvents xs) ih

theorem goodHours_dropLast {hs : List (Nat × Option Nat)} (h : GoodHours hs) :
    GoodHours hs.dropLast :=
  fun p hp => h p (List.dropLast_subset _ hp)

theorem goodHours_concat {hs : List (Nat × Option Nat)} {s v : Nat}
    (h : GoodHours hs) (hle : s ≤ v) : GoodHours (hs ++ [(s, some v)]) := by
  intro p hp
  rcases List.mem_append.1 hp with hp | hp
  · exact h p hp
  · simp only [List.mem_singleton] at hp
    subst hp
    exact ⟨v, rfl, hle⟩

theorem dropLast_concat_getLast {α : Type} {l : List α} {a : α}
    (h : l.getLast? = some a) : l.dropLast ++ [a] = l :=
  List.dropLast_append_getLast? a h

/-- Key single-step lemma: one event of the inner loop preserves the day
names of the accumulated records, the null-hours property of absent days,
the goodness of finished records, and the goodness of the running `hours`
list plus the upper bound on the running cursor. -/
theorem processEvent_props (d : Day) (st : LoopState) (item : Event)
    (st' : LoopState) (h : processEvent d st item = .ok st') :
    st'.all_days.map (fun r => r.day) = st.all_days.map (fun r => r.day) ∧
    (∀ f, NullOn f st.all_days → NullOn f st'.all_days) ∧
    (GoodDays st.all_days → GoodDays st'.all_days) ∧
    (GoodHours st.hours →
      (∀ cs, st.current_start = some cs → cs ≤ item.value) →
      GoodHours st'.hours ∧
        ∀ cs, st'.current_start = some cs → cs ≤ item.value) := by
  unfold processEvent at h
  split at h
  · -- "type" key absent: the event is skipped
    cases h
    exact ⟨rfl, fun _ hn => hn, fun g => g, fun gh hc => ⟨gh, hc⟩⟩
  · split at h
    · -- an "open" event
      split at h
      · cases h
      · split at h
        · rename_i last hlast
          split at h
          · -- consolidation with the previous finished pair
            rename_i hmerge
            cases h
            refine ⟨rfl, fun _ hn => hn, fun g => g, fun gh _ => ?_⟩
            refine ⟨goodHours_dropLast gh, ?_⟩
            intro cs hcs
            simp only [Option.some.injEq] at hcs
            subst hcs
            obtain ⟨v, hv, hle⟩ := gh last (List.mem_of_mem_getLast? hlast)
            rw [hmerge] at hv
            cases hv
            exact hle
          · cases h
            refine ⟨rfl, fun _ hn => hn, fun g => g, fun gh _ => ?_⟩
            refine ⟨gh, ?_⟩
            intro cs hcs
            simp only [Option.some.injEq] at hcs
            subst hcs
            exact Nat.le_refl _
        · cases h
          refine ⟨rfl, fun _ hn => hn, fun g => g, fun gh _ => ?_⟩
          refine ⟨gh, ?_⟩
          intro cs hcs
          simp only [Option.some.injEq] at hcs
          subst hcs
          exact Nat.le_refl _
    · split at h
      · -- a "close" event
        split at h
        · -- no cursor and no finished pairs yet for this day
          rename_i hcond
          split at h
          · rename_i prev hprev
            split at h
            · -- rewrite the end of the previous record's last interval
              rename_i p ps hph
              cases h
              have heq : st.all_days.dropLast ++ [prev] = st.all_days :=
                dropLast_concat_getLast hprev
              have hprevMem : prev ∈ st.all_days := List.mem_of_mem_getLast? hprev
              obtain ⟨last, hlast⟩ : ∃ l, (p :: ps).getLast? = some l := by
                cases hl : (p :: ps).getLast? with
                | none => simp [List.getLast?_eq_none_iff] at hl
                | some l => exact ⟨l, rfl⟩
              refine ⟨?_, ?_, ?_, ?_⟩
              · conv_rhs => rw [← heq]
                simp [List.map_append]
              · intro f hn r hr habs
                rcases List.mem_append.1 hr with hr | hr
                · exact hn r (List.dropLast_subset _ hr) habs
                · simp only [List.mem_singleton] at hr
                  subst hr
                  have := hn prev hprevMem habs
                  rw [hph] at this
                  cases this
              · intro g r hr
                rcases List.mem_append.1 hr with hr | hr
                · exact g r (List.dropLast_subset _ hr)
                · simp only [List.mem_singleton] at hr
                  subst hr
                  intro hs hhs
                  simp only [Option.some.injEq] at hhs
                  subst hhs
                  unfold setLastEnd
                  rw [hlast]
                  refine ⟨by simp, ?_⟩
                  rw [List.dropLast_concat]
                  exact ((g prev hprevMem) (p :: ps) hph).2
              · intro gh hc
                refine ⟨gh, ?_⟩
                intro cs hcs
                rw [hcond.1] at hcs
                cases hcs
            · -- previous record falsy: stash (monday) or error
              split at h
              · cases h
                exact ⟨rfl, fun _ hn => hn, fun g => g, fun gh hc => ⟨gh, hc⟩⟩
              · cases h
          · split at h
            · cases h
              exact ⟨rfl, fun _ hn => hn, fun g => g, fun gh hc => ⟨gh, hc⟩⟩
            · cases h
        · -- cursor active, or finished pairs exist
          split at h
          · cases h
          · -- finalize the pair (cursor, close value)
            rename_i cs0 hcs0
            cases h
            refine ⟨rfl, fun _ hn => hn, fun g => g, fun gh hc => ?_⟩
            refine ⟨goodHours_concat gh (hc cs0 hcs0), ?_⟩
            intro cs hcs
            cases hcs
      · -- "type" neither "open" nor "close": skipped
        cases h
        exact ⟨rfl, fun _ hn => hn, fun g => g, fun gh hc => ⟨gh, hc⟩⟩

/-- The inner-loop lemma, lifted over a sorted event list. -/
theorem processEvents_props (d : Day) :
    ∀ (evs : List Event) (st st' : LoopState),
    processEvents d evs st = .ok st' →
    evs.Pairwise (fun a b => a.value ≤ b.value) →
    (st'.all_days.map (fun r => r.day) = st.all_days.map (fun r => r.day)) ∧
    (∀ f, NullOn f st.all_days → NullOn f st'.all_days) ∧
    (GoodDays st.all_days → GoodDays st'.all_days) ∧
    (GoodHours st.hours →
      (∀ cs, st.current_start = some cs → ∀ it ∈ evs, cs ≤ it.value) →
      GoodHours st'.hours) := by
  intro evs
  induction evs with
  | nil =>
    intro st st' h _
    cases h
    exact ⟨rfl, fun _ hn => hn, fun g => g, fun gh _ => gh⟩
  | cons item rest ih =>
    intro st st' h hp
    simp only [processEvents] at h
    cases he : processEvent d st item with
    | error e => rw [he] at h; cases h
    | ok st1 =>
      rw [he] at h
      obtain ⟨hmap1, hnull1, hgood1, hinner1⟩ := processEvent_props d st item st1 he
      rcases List.pairwise_cons.1 hp with ⟨hhead, hrest⟩
      obtain ⟨hmap2, hnull2, hgood2, hinner2⟩ := ih st1 st' h hrest
      refine ⟨hmap2.trans hmap1, fun f hn => hnull2 f (hnull1 f hn),
        fun g => hgood2 (hgood1 g), ?_⟩
      intro gh hc
      obtain ⟨gh1, hb1⟩ := hinner1 gh
        (fun cs hcs => hc cs hcs item (List.mem_cons_self item rest))
      exact hinner2 gh1
        (fun cs hcs it hit => Nat.le_trans (hb1 cs hcs) (hhead it hit))

theorem attachTrailing_shape (d : Day) (sc : Option Nat)
    (hs : List (Nat × Option Nat)) (cs : Nat) :
    ∃ x, attachTrailing d sc hs cs = hs ++ [(cs, x)] := by
  unfold attachTrailing
  split
  · split
    · exact ⟨_, rfl⟩
    · exact ⟨_, rfl⟩
  · exact ⟨_, rfl⟩

/-- One day of the outer loop: it appends exactly one record, carrying the
day's name, and preserves the `NullOn` and `GoodDays` invariants. -/
theorem processDay_props (f : Day → Option (List Event)) (st st' : LoopState)
    (d : Day) (h : processDay f st d = .ok st') :
    st'.all_days.map (fun r => r.day) = st.all_days.map (fun r => r.day) ++ [d] ∧
    (NullOn f st.all_days → NullOn f st'.all_days) ∧
    (GoodDays st.all_days → GoodDays st'.all_days) := by
  unfold processDay at h
  split at h
  · -- the day is absent from the input
    cases h
    refine ⟨by simp, ?_, ?_⟩
    · intro hn r hr habs
      rcases List.mem_append.1 hr with hr | hr
      · exact hn r hr habs
      · simp only [List.mem_singleton] at hr
        subst hr
        rfl
    · intro g r hr
      rcases List.mem_append.1 hr with hr | hr
      · exact g r hr
      · simp only [List.mem_singleton] at hr
        subst hr
        intro hs hhs
        cases hhs
  · -- the day maps to an empty event list
    cases h
    refine ⟨by simp, ?_, ?_⟩
    · intro hn r hr habs
      rcases List.mem_append.1 hr with hr | hr
      · exact hn r hr habs
      · simp only [List.mem_singleton] at hr
        subst hr
        rfl
    · intro g r hr
      rcases List.mem_append.1 hr with hr | hr
      · exact g r hr
      · simp only [List.mem_singleton] at hr
        subst hr
        intro hs hhs
        cases hhs
  · -- the day has events
    rename_i e es hfd
    split at h
    · cases h
    · rename_i st1 hev
      obtain ⟨hmap1, hnull1, hgood1, hinner1⟩ :=
        processEvents_props d _ _ st1 hev (pairwise_sortEvents _)
      have gh1 : GoodHours st1.hours :=
        hinner1 (fun p hp => absurd hp (List.not_mem_nil p))
          (fun cs hcs => by cases hcs)
      split at h
      · -- trailing open cursor
        rename_i cs hcs
        cases h
        obtain ⟨x, hx⟩ := attachTrailing_shape d st1.sunday_close st1.hours cs
        refine ⟨?_, ?_, ?_⟩
        · simp only [List.map_append, hmap1, List.map_singleton]
        · intro hn r hr habs
          rcases List.mem_append.1 hr with hr | hr
          · exact hnull1 f hn r hr habs
          · simp only [List.mem_singleton] at hr
            subst hr
            simp only at habs
            rw [hfd] at habs
            rcases habs with habs | habs
            · cases habs
            · cases habs
        · intro g r hr
          rcases List.mem_append.1 hr with hr | hr
          · exact hgood1 g r hr
          · simp only [List.mem_singleton] at hr
            subst hr
            intro hs hhs
            rw [hx] at hhs
            simp only [List.append_eq_nil, List.cons_ne_nil, and_false,
              if_false, Option.some.injEq] at hhs
            subst hhs
            refine ⟨by simp, ?_⟩
            rw [List.dropLast_concat]
            exact gh1
      · -- no trailing cursor
        split at h
        · -- a sunday stash exists
          split at h
          · cases h
          · cases h
            refine ⟨?_, ?_, ?_⟩
            · simp only [List.map_append, hmap1, List.map_singleton]
            · intro hn r hr habs
              rcases List.mem_append.1 hr with hr | hr
              · exact hnull1 f hn r hr habs
              · simp only [List.mem_singleton] at hr
                subst hr
                simp only at habs
                rw [hfd] at habs
                rcases habs with habs | habs
                · cases habs
                · cases habs
            · intro g r hr
              rcases List.mem_append.1 hr with hr | hr
              · exact hgood1 g r hr
              · simp only [List.mem_singleton] at hr
                subst hr
                intro hs hhs
                simp only at hhs
                split at hhs
                · cases hhs
                · rename_i hne
                  simp only [Option.some.injEq] at hhs
                  subst hhs
                  exact ⟨hne, goodHours_dropLast gh1⟩
        · -- no stash
          cases h
          refine ⟨?_, ?_, ?_⟩
          · simp only [List.map_append, hmap1, List.map_singleton]
          · intro hn r hr habs
            rcases List.mem_append.1 hr with hr | hr
            · exact hnull1 f hn r hr habs
            · simp only [List.mem_singleton] at hr
              subst hr
              simp only at habs
              rw [hfd] at habs
              rcases habs with habs | habs
              · cases habs
              · cases habs
          · intro g r hr
            rcases List.mem_append.1 hr with hr | hr
            · exact hgood1 g r hr
            · simp only [List.mem_singleton] at hr
              subst hr
              intro hs hhs
              simp only at hhs
              split at hhs
              · cases hhs
              · rename_i hne
                simp only [Option.some.injEq] at hhs
                subst hhs
                exact ⟨hne, goodHours_dropLast gh1⟩

/-- The outer loop over a day list. -/
theorem processDays_props (f : Day → Option (List Event)) :
    ∀ (ds : List Day) (st st' : LoopState),
    processDays f ds st = .ok st' →
    st'.all_days.map (fun r => r.day) = st.all_days.map (fun r => r.day) ++ ds ∧
    (NullOn f st.all_days → NullOn f st'.all_days) ∧
    (GoodDays st.all_days → GoodDays st'.all_days) := by
  intro ds
  induction ds with
  | nil =>
    intro st st' h
    cases h
    exact ⟨by simp, fun hn => hn, fun g => g⟩
  | cons d rest ih =>
    intro st st' h
    simp only [processDays] at h
    cases hd : processDay f st d with
    | error e => rw [hd] at h; cases h
    | ok st1 =>
      rw [hd] at h
      obtain ⟨hmap1, hnull1, hgood1⟩ := processDay_props f st st1 d hd
      obtain ⟨hmap2, hnull2, hgood2⟩ := ih st1 st' h
      refine ⟨?_, fun hn => hnull2 (hnull1 hn), fun g => hgood2 (hgood1 g)⟩
      rw [hmap2, hmap1, List.append_assoc]
      rfl

/-- `finalCheck` succeeding means no record's last interval has a `None`
end. -/
theorem finalCheck_ok_prop :
    ∀ A : List DayRecord, finalCheck A = .ok () →
    ∀ r ∈ A, ∀ hs, r.hours = some hs → ∀ p, hs.getLast? = some p →
    p.2 ≠ none := by
  intro A
  induction A with
  | nil =>
    intro _ r hr
    cases hr
  | cons a rest ih =>
    intro h r hr hs hhs p hp
    unfold finalCheck at h
    split at h
    · rename_i hs0 hhs0
      split at h
      · rename_i last hlast
        split at h
        · cases h
        · rename_i hne
          rcases List.mem_cons.1 hr with rfl | hr'
          · rw [hhs0] at hhs
            cases hhs
            rw [hlast] at hp
            cases hp
            exact hne
          · exact ih h r hr' hs hhs p hp
      · rename_i hlast
        rcases List.mem_cons.1 hr with rfl | hr'
        · rw [hhs0] at hhs
          cases hhs
          rw [hlast] at hp
          cases hp
        · exact ih h r hr' hs hhs p hp
    · rename_i hnone
      rcases List.mem_cons.1 hr with rfl | hr'
      · rw [hnone] at hhs
        cases hhs
      · exact ih h r hr' hs hhs p hp

/-- If some record's last interval has a `None` end, `finalCheck` raises
the lingering-open error. -/
theorem finalCheck_offender :
    ∀ A : List DayRecord,
    (∃ r ∈ A, ∃ hs p, r.hours = some hs ∧ hs.getLast? = some p ∧ p.2 = none) →
    ∃ s dy, finalCheck A = .error (.lingeringOpen s dy) := by
  intro A
  induction A with
  | nil =>
    rintro ⟨r, hr, -⟩
    cases hr
  | cons a rest ih =>
    rintro ⟨r, hr, hs, p, hhs, hp, hnone⟩
    rcases List.mem_cons.1 hr with rfl | hr'
    · refine ⟨p.1, r.day, ?_⟩
      unfold finalCheck
      rw [hhs]
      dsimp only
      rw [hp]
      dsimp only
      rw [if_pos hnone]
    · cases ha : a.hours with
      | none =>
        obtain ⟨s, dy, hres⟩ := ih ⟨r, hr', hs, p, hhs, hp, hnone⟩
        refine ⟨s, dy, ?_⟩
        unfold finalCheck
        rw [ha]
        exact hres
      | some hs0 =>
        cases hl : hs0.getLast? with
        | none =>
          obtain ⟨s, dy, hres⟩ := ih ⟨r, hr', hs, p, hhs, hp, hnone⟩
          refine ⟨s, dy, ?_⟩
          unfold finalCheck
          rw [ha]
          dsimp only
          rw [hl]
          exact hres
        | some last =>
          by_cases hln : last.2 = none
          · refine ⟨last.1, a.day, ?_⟩
            unfold finalCheck
            rw [ha]
            dsimp only
            rw [hl]
            dsimp only
            rw [if_pos hln]
          · obtain ⟨s, dy, hres⟩ := ih ⟨r, hr', hs, p, hhs, hp, hnone⟩
            refine ⟨s, dy, ?_⟩
            unfold finalCheck
            rw [ha]
            dsimp only
            rw [hl]
            dsimp only
            rw [if_neg hln]
            exact hres

/-- Everything a successful run of the normalizer guarantees about its
output list. -/
theorem parse_props (f : Day → Option (List Event)) (l : List DayRecord)
    (h : parse_opening_hours f = .ok l) :
    l.map (fun r => r.day) = DAY_NAMES ∧ NullOn f l ∧ GoodDays l ∧
    finalCheck l = .ok () := by
  unfold parse_opening_hours at h
  split at h
  · cases h
  · rename_i st hpd
    split at h
    · cases h
    · rename_i u hfc
      cases h
      obtain ⟨hmap, hnull, hgood⟩ := processDays_props f DAY_NAMES _ st hpd
      refine ⟨by simpa using hmap, ?_, ?_, ?_⟩
      · exact hnull (fun r hr => absurd hr (List.not_mem_nil r))
      · exact hgood (fun r hr => absurd hr (List.not_mem_nil r))
      · cases u
        exact hfc

/-! ### Claim theorems -/

/-- Claim C2: on every input where the normalizer succeeds, the output has
exactly 7 records, one per weekday, in the fixed canonical order Monday
through Sunday; a day absent from the input or mapped to an empty event
list yields a record with null hours; the empty input yields all 7 records
with null hours. -/
theorem c2_seven_records_fixed_order (f : Day → Option (List Event))
    (l : List DayRecord) (h : parse_opening_hours f = .ok l) :
    l.length = 7 ∧
    l.map (fun r => r.day) = DAY_NAMES ∧
    (∀ d : Day, (f d = none ∨ f d = some []) →
      (∃ r ∈ l, r.day = d) ∧ ∀ r ∈ l, r.day = d → r.hours = none) ∧
    parse_opening_hours (fun _ => none) = .ok allNullDays := by
  obtain ⟨hmap, hnull, -, -⟩ := parse_props f l h
  refine ⟨?_, hmap, ?_, rfl⟩
  · have hlen := congrArg List.length hmap
    simpa using hlen
  · intro d hd
    constructor
    · have hdmem : d ∈ DAY_NAMES := by cases d <;> simp [DAY_NAMES]
      rw [← hmap] at hdmem
      obtain ⟨r, hr, hrd⟩ := List.mem_map.1 hdmem
      exact ⟨r, hr, hrd⟩
    · intro r hr hrd
      exact hnull r hr (by rw [hrd]; exact hd)

/-- Witness for C2 at the empty input. -/
theorem c2_seven_records_fixed_order_witness :
    allNullDays.length = 7 ∧
    allNullDays.map (fun r => r.day) = DAY_NAMES ∧
    (∀ d : Day,
      ((fun _ : Day => (none : Option (List Event))) d = none ∨
       (fun _ : Day => (none : Option (List Event))) d = some []) →
      (∃ r ∈ allNullDays, r.day = d) ∧
      ∀ r ∈ allNullDays, r.day = d → r.hours = none) ∧
    parse_opening_hours (fun _ => none) = .ok allNullDays :=
  c2_seven_records_fixed_order (fun _ => none) allNullDays rfl

/-- Counterexample to claim C3: the input with Saturday `[{open,61200}]`
and Sunday `[{close,3600}]` succeeds, and its output contains an interval
`(61200, 3600)` with end < start on the SATURDAY record (via the
previous-day rewrite of lines 93–96), not on the Sunday record and not via
the Sunday-to-Monday stash — refuting "no interval on any other day, for
any input, has end less than start". -/
theorem c3_end_lt_start_counterexample :
    parse_opening_hours
      (inputOf [(.saturday, [⟨some "open", 61200⟩]),
                (.sunday, [⟨some "close", 3600⟩])]) =
      .ok [⟨.monday, none⟩, ⟨.tuesday, none⟩, ⟨.wednesday, none⟩,
           ⟨.thursday, none⟩, ⟨.friday, none⟩,
           ⟨.saturday, some [(61200, some 3600)]⟩, ⟨.sunday, none⟩] ∧
    3600 < 61200 :=
  ⟨rfl, by decide⟩

/-- Claim C3, amended: in every successful output an interval whose end is
numerically less than its start can only be the LAST interval of its day's
hours list (such a trailing interval arises from the Sunday-to-Monday
stash, or from a following day's leading close event rewriting the
previous day's trailing interval); every non-last interval has a finished
end with start ≤ end. -/
theorem c3_end_lt_start_amended (f : Day → Option (List Event))
    (l : List DayRecord) (h : parse_opening_hours f = .ok l) :
    ∀ r ∈ l, ∀ hs, r.hours = some hs →
    ∀ p ∈ hs.dropLast, ∃ v, p.2 = some v ∧ p.1 ≤ v := by
  obtain ⟨-, -, hgood, -⟩ := parse_props f l h
  intro r hr hs hhs
  exact ((hgood r hr) hs hhs).2

/-- Witness for the amended C3 on a two-interval Monday. -/
theorem c3_end_lt_start_amended_witness :
    ∃ v, ((100 : Nat), some (200 : Nat)).2 = some v ∧ (100 : Nat) ≤ v :=
  c3_end_lt_start_amended
    (inputOf [(.monday, [⟨some "open", 100⟩, ⟨some "close", 200⟩,
                         ⟨some "open", 300⟩, ⟨some "close", 400⟩])])
    [⟨.monday, some [(100, some 200), (300, some 400)]⟩, ⟨.tuesday, none⟩,
     ⟨.wednesday, none⟩, ⟨.thursday, none⟩, ⟨.friday, none⟩,
     ⟨.saturday, none⟩, ⟨.sunday, none⟩]
    rfl
    ⟨.monday, some [(100, some 200), (300, some 400)]⟩
    (List.mem_cons_self _ _)
    [(100, some 200), (300, some 400)] rfl
    (100, some 200) (by decide)

/-- Claim C8: after the seven records are produced, a day whose last
interval has a null end makes the final scan fail with the lingering-open
error; consequently no successful output contains any interval with a null
end. -/
theorem c8_lingering_open :
    (∀ A : List DayRecord,
      (∃ r ∈ A, ∃ hs p, r.hours = some hs ∧ hs.getLast? = some p ∧
        p.2 = none) →
      ∃ s dy, finalCheck A = .error (.lingeringOpen s dy)) ∧
    (∀ (f : Day → Option (List Event)) (l : List DayRecord),
      parse_opening_hours f = .ok l →
      ∀ r ∈ l, ∀ hs, r.hours = some hs → ∀ p ∈ hs, p.2 ≠ none) := by
  refine ⟨finalCheck_offender, ?_⟩
  intro f l h r hr hs hhs p hp
  obtain ⟨-, -, hgood, hfc⟩ := parse_props f l h
  obtain ⟨hne, hdrop⟩ := (hgood r hr) hs hhs
  have hsplit : hs.dropLast ++ [hs.getLast hne] = hs :=
    List.dropLast_append_getLast hne
  rw [← hsplit] at hp
  rcases List.mem_append.1 hp with hp' | hp'
  · obtain ⟨v, hv, -⟩ := hdrop p hp'
    rw [hv]
    exact fun hcon => Option.noConfusion hcon
  · simp only [List.mem_singleton] at hp'
    subst hp'
    exact finalCheck_ok_prop l hfc r hr hs hhs (hs.getLast hne)
      (List.getLast?_eq_getLast hs hne)

/-- Witness for C8: the lingering-open error fires on a record ending in a
null end, and a finished interval of a successful parse has a non-null
end. -/
theorem c8_lingering_open_witness :
    (∃ s dy, finalCheck [⟨.monday, some [(5, none)]⟩] =
      .error (.lingeringOpen s dy)) ∧
    ((36000 : Nat), some (86399 : Nat)).2 ≠ none :=
  ⟨c8_lingering_open.1 [⟨.monday, some [(5, none)]⟩]
    ⟨⟨.monday, some [(5, none)]⟩, List.mem_cons_self _ _,
     [(5, none)], (5, none), rfl, rfl, rfl⟩,
   c8_lingering_open.2
    (inputOf [(.monday, [⟨some "open", 36000⟩, ⟨some "close", 86399⟩])])
    [⟨.monday, some [(36000, some 86399)]⟩, ⟨.tuesday, none⟩,
     ⟨.wednesday, none⟩, ⟨.thursday, none⟩, ⟨.friday, none⟩,
     ⟨.saturday, none⟩, ⟨.sunday, none⟩]
    rfl
    ⟨.monday, some [(36000, some 86399)]⟩ (List.mem_cons_self _ _)
    [(36000, some 86399)] rfl (36000, some 86399) (by decide)⟩

/-- Counterexample to claim C1: with Monday `[{close,0}]` and Sunday
`[{open,61200}]` the claim's conditions hold (Sunday's last open has no
Sunday close; Monday's list begins with a close paired with no Monday
open), yet the normalizer does not succeed: the stashed value `0` is falsy
for the `sunday_close` truthiness test of line 117, so Sunday's trailing
interval keeps a null end and the run fails with the lingering-open
error. -/
theorem c1_cross_midnight_counterexample :
    parse_opening_hours
      (inputOf [(.monday, [⟨some "close", 0⟩]),
                (.sunday, [⟨some "open", 61200⟩])]) =
      .error (.lingeringOpen 61200 .sunday) := rfl

/-- Claim C1, amended: restricted to a NONZERO Monday close value. For
every nonzero `c` and every `s`, the input with Monday `[{close,c}]` and
Sunday `[{open,s}]` succeeds with Sunday hours `[(s, c)]` and a null-hours
Monday record (a zero Monday close is dropped by the truthiness test and
the normalizer instead fails with the lingering-open error); in particular
Monday `[{close,3600}]` with Sunday `[{open,61200}]` yields Sunday hours
`[(61200, 3600)]` and Monday null. -/
theorem c1_cross_midnight_amended (c s : Nat) (hc : c ≠ 0) :
    parse_opening_hours
      (inputOf [(.monday, [⟨some "close", c⟩]),
                (.sunday, [⟨some "open", s⟩])]) =
      .ok [⟨.monday, none⟩, ⟨.tuesday, none⟩, ⟨.wednesday, none⟩,
           ⟨.thursday, none⟩, ⟨.friday, none⟩, ⟨.saturday, none⟩,
           ⟨.sunday, some [(s, some c)]⟩] := by
  simp [parse_opening_hours, processDays, processDay, processEvents,
        processEvent, sortEvents, insertSorted, inputOf, DAY_NAMES,
        attachTrailing, optTruthy, finalCheck, setLastEnd, hc]

/-- Witness for the amended C1 at the documented example values. -/
theorem c1_cross_midnight_amended_witness :
    parse_opening_hours
      (inputOf [(.monday, [⟨some "close", 3600⟩]),
                (.sunday, [⟨some "open", 61200⟩])]) =
      .ok [⟨.monday, none⟩, ⟨.tuesday, none⟩, ⟨.wednesday, none⟩,
           ⟨.thursday, none⟩, ⟨.friday, none⟩, ⟨.saturday, none⟩,
           ⟨.sunday, some [(61200, some 3600)]⟩] :=
  c1_cross_midnight_amended 3600 61200 (by decide)

/-- Counterexample to claim C4: Monday `[{close,3600}]` stashes a close
value for Sunday, Sunday is absent, and the normalizer SUCCEEDS with all
seven records null — the absent-day `continue` of line 63 skips the
lingering-close check of lines 121–122, so no LingeringCloseError is
raised. -/
theorem c4_lingering_close_counterexample :
    parse_opening_hours (inputOf [(.monday, [⟨some "close", 3600⟩])]) =
      .ok allNullDays := rfl

/-- Claim C4, amended: when a NONZERO close value was stashed from Monday
and Sunday is present with a NONEMPTY event list whose processing ends
with no active cursor, the normalizer fails with the lingering-close
error (here on the family Monday `[{close,c}]`, Sunday
`[{open,a},{close,b}]` with `c ≠ 0`, `a ≤ b`); when Sunday is absent or
empty, or the stashed value is zero, the stash is silently dropped
instead. -/
theorem c4_lingering_close_amended (a b c : Nat) (hc : c ≠ 0) (hab : a ≤ b) :
    parse_opening_hours
      (inputOf [(.monday, [⟨some "close", c⟩]),
                (.sunday, [⟨some "open", a⟩, ⟨some "close", b⟩])]) =
      .error .lingeringSundayClose := by
  have hba : ¬ (b < a) := Nat.not_lt.2 hab
  simp [parse_opening_hours, processDays, processDay, processEvents,
        processEvent, sortEvents, insertSorted, inputOf, DAY_NAMES,
        attachTrailing, optTruthy, finalCheck, setLastEnd, hba, hc]

/-- Witness for the amended C4. -/
theorem c4_lingering_close_amended_witness :
    parse_opening_hours
      (inputOf [(.monday, [⟨some "close", 3600⟩]),
                (.sunday, [⟨some "open", 61200⟩, ⟨some "close", 75600⟩])]) =
      .error .lingeringSundayClose :=
  c4_lingering_close_amended 61200 75600 3600 (by decide) (by decide)

/-- Claim C5 evaluated at the failing input: an open at value 0 leaves the
cursor at `some 0`, which line 78's truthiness test (`if current_start:`)
treats as inactive, so the following open at 100 raises NO
OverlappingOpenError; the run succeeds, silently discarding the open at 0.
The claim (and the spec's intent, "a previous open of any value including
0") says this input must fail with OverlappingOpenError. -/
theorem c5_overlapping_open_zero_cursor :
    parse_opening_hours
      (inputOf [(.monday, [⟨some "open", 0⟩, ⟨some "open", 100⟩,
                           ⟨some "close", 200⟩])]) =
      .ok [⟨.monday, some [(100, some 200)]⟩, ⟨.tuesday, none⟩,
           ⟨.wednesday, none⟩, ⟨.thursday, none⟩, ⟨.friday, none⟩,
           ⟨.saturday, none⟩, ⟨.sunday, none⟩] := rfl

/-- Claim C6: a close event processed with no active cursor and no
finalized intervals yet for the current day, when the previous record in
the output has a (truthy) finalized interval list, rewrites that record's
last interval's end to the close value, leaves its start unchanged, and
raises no error. -/
theorem c6_previous_day_rewrite (d : Day) (st : LoopState) (v : Nat)
    (A : List DayRecord) (rec : DayRecord) (hs : List (Nat × Option Nat))
    (p : Nat × Option Nat)
    (hcur : st.current_start = none) (hhrs : st.hours = [])
    (hA : st.all_days = A ++ [rec]) (hrec : rec.hours = some hs)
    (hlast : hs.getLast? = some p) :
    processEvent d st ⟨some "close", v⟩ =
      .ok { st with all_days :=
        A ++ [{ rec with hours := some (hs.dropLast ++ [(p.1, some v)]) }] } := by
  cases hs with
  | nil => cases hlast
  | cons q qs =>
    simp [processEvent, hcur, hhrs, hA, hrec, setLastEnd, hlast]

/-- Witness for C6: a Tuesday close at 5 rewrites Monday's trailing
interval (10, 20) to (10, 5). -/
theorem c6_previous_day_rewrite_witness :
    processEvent .tuesday
      ⟨[⟨.monday, some [(10, some 20)]⟩], none, [], none⟩
      ⟨some "close", 5⟩ =
      .ok ⟨[⟨.monday, some [(10, some 5)]⟩], none, [], none⟩ :=
  c6_previous_day_rewrite .tuesday
    ⟨[⟨.monday, some [(10, some 20)]⟩], none, [], none⟩ 5
    [] ⟨.monday, some [(10, some 20)]⟩ [(10, some 20)] (10, some 20)
    rfl rfl rfl rfl rfl

/-- Claim C7: an open event whose value equals the immediately preceding
finalized interval's end merges with it — the finalized interval is
dropped and its start is reused as the cursor — and on one day the sorted
events open 100, close 200, open 200, close 300 produce the single
interval (100, 300). -/
theorem c7_adjacent_merge :
    (∀ (d : Day) (st : LoopState) (v : Nat)
        (hs0 : List (Nat × Option Nat)) (s0 : Nat),
      st.current_start = none → st.hours = hs0 ++ [(s0, some v)] →
      processEvent d st ⟨some "open", v⟩ =
        .ok { st with current_start := some s0, hours := hs0 }) ∧
    parse_opening_hours
      (inputOf [(.monday, [⟨some "open", 100⟩, ⟨some "close", 200⟩,
                           ⟨some "open", 200⟩, ⟨some "close", 300⟩])]) =
      .ok [⟨.monday, some [(100, some 300)]⟩, ⟨.tuesday, none⟩,
           ⟨.wednesday, none⟩, ⟨.thursday, none⟩, ⟨.friday, none⟩,
           ⟨.saturday, none⟩, ⟨.sunday, none⟩] := by
  constructor
  · intro d st v hs0 s0 hcur hhrs
    simp [processEvent, hcur, hhrs, optTruthy]
  · rfl

/-- Witness for C7: merging an open at 9 with the finalized pair (7, 9). -/
theorem c7_adjacent_merge_witness :
    processEvent .monday ⟨[], none, [(7, some 9)], none⟩ ⟨some "open", 9⟩ =
      .ok ⟨[], none, [], some 7⟩ :=
  c7_adjacent_merge.1 .monday ⟨[], none, [(7, some 9)], none⟩ 9 [] 7 rfl rfl

/-- Claim C9: the time decomposition discards seconds (hour = s / 3600,
minute = s % 3600 / 60); rendering uses "am" for hour < 12 and "pm" for
hour ≥ 12, subtracts 12 for display only when hour > 12, shows hour 0 as
"0" and hour 12 as "12" with "pm", omits minutes when zero and otherwise
zero-pads them to two digits after a colon; and the five documented sample
values render as stated. -/
theorem c9_time_formatting :
    (∀ s : Nat, seconds_to_hours_and_minutes s = (s / 3600, s % 3600 / 60)) ∧
    (∀ h m : Nat, 0 < m → m < 60 →
      hours_and_minutes_as_string (h, m) =
        toString (if h > 12 then h - 12 else h) ++ ":" ++
          (if m < 10 then "0" ++ toString m else toString m) ++ " " ++
          (if h < 12 then "am" else "pm")) ∧
    (∀ h : Nat, hours_and_minutes_as_string (h, 0) =
      toString (if h > 12 then h - 12 else h) ++ " " ++
        (if h < 12 then "am" else "pm")) ∧
    renderSeconds 0 = "0 am" ∧ renderSeconds 36000 = "10 am" ∧
    renderSeconds 64800 = "6 pm" ∧ renderSeconds 36900 = "10:15 am" ∧
    renderSeconds 86399 = "11:59 pm" ∧
    hours_and_minutes_as_string (12, 0) = "12 pm" := by
  refine ⟨?_, ?_, ?_, rfl, rfl, rfl, rfl, rfl, rfl⟩
  · intro s
    unfold seconds_to_hours_and_minutes
    refine Prod.ext ?_ ?_
    · show s / 60 / 60 = s / 3600
      rw [Nat.div_div_eq_div_mul]
    · show s / 60 % 60 = s % 3600 / 60
      rw [show (3600 : Nat) = 60 * 60 from rfl, Nat.mod_mul_right_div_self]
  · intro h m hm0 hm
    unfold hours_and_minutes_as_string pad2
    rcases Nat.lt_trichotomy h 12 with h12 | h12 | h12
    · simp [Nat.not_le.2 h12, h12, Nat.ne_of_gt hm0, Nat.lt_asymm h12,
        Nat.not_lt.2 (Nat.le_of_lt h12), String.append_assoc]
    · subst h12
      simp [Nat.ne_of_gt hm0, String.append_assoc]
    · simp [Nat.le_of_lt h12, h12, Nat.ne_of_gt hm0,
        Nat.not_lt.2 (Nat.le_of_lt h12), String.append_assoc]
  · intro h
    unfold hours_and_minutes_as_string
    rcases Nat.lt_trichotomy h 12 with h12 | h12 | h12
    · simp [Nat.not_le.2 h12, h12, Nat.lt_asymm h12,
        Nat.not_lt.2 (Nat.le_of_lt h12)]
    · subst h12
      simp
    · simp [Nat.le_of_lt h12, h12, Nat.not_lt.2 (Nat.le_of_lt h12)]

/-- Witness for C9 at hour 23, minute 59. -/
theorem c9_time_formatting_witness :
    hours_and_minutes_as_string (23, 59) =
      toString (if 23 > 12 then 23 - 12 else (23 : Nat)) ++ ":" ++
        (if (59 : Nat) < 10 then "0" ++ toString (59 : Nat)
         else toString (59 : Nat)) ++ " " ++
        (if 23 < 12 then "am" else "pm") :=
  c9_time_formatting.2.1 23 59 (by decide) (by decide)

/-- Claim C10: an event record lacking a "type" key, or whose type is
neither "open" nor "close", is silently skipped — the state is returned
unchanged, no error is raised — and a day holding only such events comes
out with null hours. -/
theorem c10_unknown_type_skipped :
    (∀ (d : Day) (st : LoopState) (item : Event),
      (item.type = none ∨
        ∃ t, item.type = some t ∧ t ≠ "open" ∧ t ≠ "close") →
      processEvent d st item = .ok st) ∧
    parse_opening_hours
      (inputOf [(.monday, [⟨none, 50⟩, ⟨some "foo", 60⟩])]) =
      .ok allNullDays := by
  constructor
  · intro d st item h
    rcases h with h | ⟨t, ht, h1, h2⟩
    · simp [processEvent, h]
    · simp [processEvent, ht, h1, h2]
  · rfl

/-- Witness for C10: a junk event leaves the initial state untouched. -/
theorem c10_unknown_type_skipped_witness :
    processEvent .monday ⟨[], none, [], none⟩ ⟨some "whatever", 5⟩ =
      .ok ⟨[], none, [], none⟩ :=
  c10_unknown_type_skipped.1 .monday ⟨[], none, [], none⟩ ⟨some "whatever", 5⟩
    (Or.inr ⟨"whatever", rfl, by decide, by decide⟩)
